/-
Verification of the retrieval core of the rig-rag-system repository:
segmentation (chunking.rs), lexical ranking (search.rs), evaluation
(evaluation.rs), storage (storage.rs) and the tying layer (lib.rs).

Shallow embedding conventions:
* Rust `f32` scores are modelled as exact rationals (ℚ); every arithmetic
  step of the source is mirrored on ℚ.
* Rust `String` is modelled by Lean `String`; `str::to_lowercase` is
  modelled by mapping `Char.toLower` over the characters, and
  `str::split_whitespace` by an explicit accumulator recursion that drops
  empty fragments, as the Rust iterator does.
* `HashMap<String, _>` state is modelled extensionally as
  `String → Option _`; `HashMap::insert` is pointwise function update.
* Rust's stable `sort_by` with the descending score comparator is
  modelled by Mathlib's stable `List.insertionSort` under the total
  preorder `scoreDesc` (a stable sort's output is determined by the
  comparator and the input order, so any stable sort is a faithful model).
* The `while start < words.len()` loop of `fixed_size_chunking` is
  modelled with explicit fuel (`fixedSizeLoop`); `none` models fuel
  exhaustion, i.e. the loop still running.  Fuel `words.length` is proved
  sufficient whenever `chunk_size ≥ 1`.
-/
import Mathlib

namespace RagMvp

/-! ### Word splitting and substring containment (str helpers) -/

/-- Model of Rust `str::to_lowercase` at the character-list level
(ASCII case mapping, which is all the repository's inputs exercise). -/
def toLowerChars (s : String) : List Char := s.data.map Char.toLower

/-- Accumulator recursion behind `splitWhitespaceChars`: `acc` holds the
characters of the current word, reversed. -/
def splitWsGo : List Char → List Char → List (List Char)
  | [], acc => if acc = [] then [] else [acc.reverse]
  | c :: cs, acc =>
    if c.isWhitespace then
      if acc = [] then splitWsGo cs [] else acc.reverse :: splitWsGo cs []
    else
      splitWsGo cs (c :: acc)

/-- Model of Rust `str::split_whitespace` on a character list: maximal
runs of non-whitespace characters, empty fragments discarded. -/
def splitWhitespaceChars (l : List Char) : List (List Char) := splitWsGo l []

/-- Model of Rust `str::split_whitespace().collect::<Vec<_>>()`. -/
def splitWhitespace (s : String) : List String :=
  (splitWhitespaceChars s.data).map (fun w => String.mk w)

/-- Model of Rust `str::contains(needle)`: `needle` occurs contiguously
inside `hay`.  The empty needle is contained in everything, as in Rust. -/
def containsSeq : List Char → List Char → Bool
  | [], needle => needle.isPrefixOf ([] : List Char)
  | c :: rest, needle => needle.isPrefixOf (c :: rest) || containsSeq rest needle

/-! ### Data model (processor.rs, chunking.rs, search.rs, evaluation.rs) -/

/-- processor.rs `DocumentMetadata`. -/
structure DocumentMetadata where
  file_path : String
  file_type : String
  file_size : Nat
  word_count : Nat
  deriving DecidableEq

/-- processor.rs `ProcessedDocument`. -/
structure ProcessedDocument where
  id : String
  content : String
  metadata : DocumentMetadata
  deriving DecidableEq

/-- chunking.rs `DocumentChunk`. -/
structure DocumentChunk where
  id : String
  content : String
  start_pos : Nat
  end_pos : Nat
  word_count : Nat
  document_id : String
  deriving DecidableEq

/-- search.rs `SearchResult`; `score: f32` modelled as ℚ. -/
structure SearchResult where
  chunk_id : String
  document_id : String
  content : String
  score : ℚ
  rank : Nat
  deriving DecidableEq

/-- evaluation.rs `EvaluationMetrics`; `f32` fields modelled as ℚ. -/
structure EvaluationMetrics where
  relevance : ℚ
  precision : ℚ
  «recall» : ℚ
  f1_score : ℚ
  deriving DecidableEq

/-! ### Segmenter (chunking.rs) -/

/-- chunking.rs `ChunkingStrategy`. -/
inductive ChunkingStrategy where
  | FixedSize (size : Nat)
  | Paragraph
  deriving DecidableEq

/-- The `while start < words.len()` loop of
`ChunkingEngine::fixed_size_chunking`, with explicit fuel; `none` models
the loop still running after `fuel` iterations.  `idx` is `chunks.len()`
at loop entry (used for the chunk id), `start` the current word index. -/
def fixedSizeLoop (docId : String) (words : List String) (chunkSize : Nat) :
    Nat → Nat → Nat → Option (List DocumentChunk)
  | 0, start, _ =>
    if start < words.length then none else some []
  | fuel + 1, start, idx =>
    if start < words.length then
      let e := min (start + chunkSize) words.length
      let chunkWords := (words.drop start).take (e - start)
      let c : DocumentChunk :=
        { id := docId ++ "_" ++ toString idx
          content := String.intercalate " " chunkWords
          start_pos := start
          end_pos := e
          word_count := chunkWords.length
          document_id := docId }
      (fixedSizeLoop docId words chunkSize fuel e (idx + 1)).map (fun cs => c :: cs)
    else some []

/-- chunking.rs `ChunkingEngine::fixed_size_chunking`.  Fuel
`words.length` is enough for every `chunkSize ≥ 1` (proved below); for
`chunkSize = 0` on a document with at least one word the source loop
makes no progress and this returns `none`. -/
def fixedSizeChunking (document : ProcessedDocument) (chunkSize : Nat) :
    Option (List DocumentChunk) :=
  let words := splitWhitespace document.content
  fixedSizeLoop document.id words chunkSize words.length 0 0

/-- The `for (i, paragraph)` loop of `ChunkingEngine::paragraph_chunking`;
`i` is the paragraph index, `wordPos` the running word offset. -/
def paragraphLoop (docId : String) : Nat → Nat → List String → List DocumentChunk
  | _, _, [] => []
  | i, wordPos, p :: ps =>
    let wc := (splitWhitespace p).length
    { id := docId ++ "_" ++ toString i
      content := p
      start_pos := wordPos
      end_pos := wordPos + wc
      word_count := wc
      document_id := docId } :: paragraphLoop docId (i + 1) (wordPos + wc) ps

/-- chunking.rs `ChunkingEngine::paragraph_chunking`. -/
def paragraphChunking (document : ProcessedDocument) : List DocumentChunk :=
  paragraphLoop document.id 0 0
    ((document.content.splitOn "\n\n").filter (fun p => !p.trim.isEmpty))

/-- chunking.rs `ChunkingEngine::chunk_document` (dispatch on strategy). -/
def chunkDocument (strategy : ChunkingStrategy) (document : ProcessedDocument) :
    Option (List DocumentChunk) :=
  match strategy with
  | .FixedSize size => fixedSizeChunking document size
  | .Paragraph => some (paragraphChunking document)

/-! ### Lexical ranker (search.rs) -/

/-- The length-penalty expression inside
`SearchEngine::calculate_similarity` (search.rs lines 80–86), as a
function of `content_words.len()`. -/
def lengthPenalty (wc : Nat) : ℚ :=
  if wc < 10 then (wc : ℚ) / 10
  else if wc > 200 then 200 / (wc : ℚ)
  else 1

/-- search.rs `SearchEngine::calculate_similarity`. -/
def calculateSimilarity (query content : String) : ℚ :=
  let queryWords := splitWhitespaceChars (toLowerChars query)
  let contentWords := splitWhitespaceChars (toLowerChars content)
  if queryWords = [] ∨ contentWords = [] then 0
  else
    let «matches» := queryWords.countP
      (fun qw => contentWords.any (fun cw => containsSeq cw qw || containsSeq qw cw))
    let keywordScore : ℚ := («matches» : ℚ) / (queryWords.length : ℚ)
    keywordScore * lengthPenalty contentWords.length

/-- The scoring map of `SearchEngine::search` (chunks.iter().enumerate()
.map(..)): each chunk becomes a result whose provisional rank is its
enumeration index. -/
def scoreChunks (query : String) : Nat → List DocumentChunk → List SearchResult
  | _, [] => []
  | i, c :: cs =>
    { chunk_id := c.id
      document_id := c.document_id
      content := c.content
      score := calculateSimilarity query c.content
      rank := i } :: scoreChunks query (i + 1) cs

/-- The comparator of `results.sort_by(|a, b| b.score.partial_cmp(&a.score) ...)`
as a total preorder: `a` may precede `b` iff `b.score ≤ a.score`. -/
def scoreDesc (a b : SearchResult) : Prop := b.score ≤ a.score

instance : DecidableRel scoreDesc :=
  fun a b => inferInstanceAs (Decidable (b.score ≤ a.score))

instance : IsTotal SearchResult scoreDesc :=
  ⟨fun a b => le_total b.score a.score⟩

instance : IsTrans SearchResult scoreDesc :=
  ⟨fun _ _ _ hab hbc => le_trans hbc hab⟩

/-- The rank-update loop of `SearchEngine::search`
(`result.rank = i + 1` over the truncated list). -/
def assignRanks : Nat → List SearchResult → List SearchResult
  | _, [] => []
  | i, r :: rs => { r with rank := i + 1 } :: assignRanks (i + 1) rs

/-- search.rs `SearchEngine::search`: score all chunks, stable-sort by
descending score, truncate to `limit`, reassign 1-based ranks. -/
def search (query : String) (chunks : List DocumentChunk) (limit : Nat) :
    List SearchResult :=
  assignRanks 0 ((List.insertionSort scoreDesc (scoreChunks query 0 chunks)).take limit)

/-! ### Relevance evaluator (evaluation.rs) -/

/-- evaluation.rs `Evaluator::calculate_relevance`. -/
def calculateRelevance (results : List SearchResult) : ℚ :=
  if results = [] then 0
  else
    let totalScore := (results.map (fun r => r.score)).sum
    let maxPossibleScore : ℚ := results.length
    if 0 < maxPossibleScore then min (totalScore / maxPossibleScore) 1 else 0

/-- evaluation.rs `Evaluator::calculate_precision_recall`.  The Rust
`HashSet` membership test on document ids is modelled by list membership
on the same ids. -/
def calculatePrecisionRecall (results : List SearchResult)
    (expectedDocIds : List String) : ℚ × ℚ :=
  if expectedDocIds = [] then (1, 1)
  else
    let relevantRetrieved :=
      results.countP (fun r => expectedDocIds.contains r.document_id)
    let precision : ℚ :=
      if results ≠ [] then (relevantRetrieved : ℚ) / (results.length : ℚ) else 0
    let «recall» : ℚ := (relevantRetrieved : ℚ) / (expectedDocIds.length : ℚ)
    (precision, «recall»)

/-- evaluation.rs `Evaluator::evaluate`. -/
def evaluate (results : List SearchResult) (expectedDocIds : List String) :
    EvaluationMetrics :=
  if results = [] then ⟨0, 0, 0, 0⟩
  else
    let relevance := calculateRelevance results
    let pr := calculatePrecisionRecall results expectedDocIds
    let precision := pr.1
    let «recall» := pr.2
    let f1Score :=
      if 0 < precision + «recall» then
        2 * (precision * «recall») / (precision + «recall»)
      else 0
    ⟨relevance, precision, «recall», f1Score⟩

/-! ### Corpus store (storage.rs) -/

/-- One `chunk_map.insert(chunk.id.clone(), chunk)` step of
`StorageManager::store_chunks`, on the extensional map model. -/
def insertChunk (m : String → Option DocumentChunk) (c : DocumentChunk) :
    String → Option DocumentChunk :=
  fun key => if key = c.id then some c else m key

/-- storage.rs `StorageManager::store_chunks`.  The source binds its
document-id argument as `_doc_id` and never uses it; the parameter is
kept here to mirror the signature. -/
def storeChunks (_doc_id : String) (chunks : List DocumentChunk)
    (m : String → Option DocumentChunk) : String → Option DocumentChunk :=
  chunks.foldl insertChunk m

/-! ### Tying layer (rag_mvp lib.rs) -/

/-- lib.rs `SimpleRagSystem::search`: the stored chunk snapshot returned
by `get_all_chunks` is the `storedChunks` argument. -/
def ragSearch (storedChunks : List DocumentChunk) (query : String) (limit : Nat) :
    List SearchResult :=
  search query storedChunks limit

/-- lib.rs `SimpleRagSystem::evaluate_search`: always searches with
limit 5, then evaluates. -/
def evaluateSearch (storedChunks : List DocumentChunk) (query : String)
    (expectedDocIds : List String) : EvaluationMetrics :=
  evaluate (ragSearch storedChunks query 5) expectedDocIds

/-! ### Spec-side reference scorer (spec.md §4.3), for the refinement
claim about `calculate_similarity`. -/

/-- Modelled from the spec: one query word is scanned against the chunk
words in order and matches at the first bidirectional substring
containment ("stop scanning chunk words for that query word at the first
match"). -/
def specWordMatches (qw : List Char) : List (List Char) → Bool
  | [] => false
  | cw :: rest =>
    if containsSeq cw qw || containsSeq qw cw then true else specWordMatches qw rest

/-- Modelled from the spec: "chunks under 10 words are penalized
proportionally (word_count / 10); chunks over 200 words are penalized
inversely (200 / word_count); chunks in [10,200] words get no penalty". -/
def specLengthPenalty (wc : Nat) : ℚ :=
  if wc < 10 then (wc : ℚ) / 10
  else if 200 < wc then 200 / (wc : ℚ)
  else 1

/-- Modelled from the spec (§4.3 scoring algorithm steps 1–6): lower-case
and whitespace-split both strings, score 0 if either side is empty,
otherwise the fraction of query words with a match times the length
penalty. -/
def specSimilarity (query content : String) : ℚ :=
  let queryWords := splitWhitespaceChars (toLowerChars query)
  let contentWords := splitWhitespaceChars (toLowerChars content)
  if queryWords = [] ∨ contentWords = [] then 0
  else
    let matched := (queryWords.filter (fun qw => specWordMatches qw contentWords)).length
    let keywordScore : ℚ := (matched : ℚ) / (queryWords.length : ℚ)
    keywordScore * specLengthPenalty contentWords.length

/-- Termination of the source's fixed-size chunking loop on a document,
expressed through the fuelled model: some finite iteration count
completes the loop. -/
def FixedSizeTerminates (document : ProcessedDocument) (chunkSize : Nat) : Prop :=
  ∃ fuel, (fixedSizeLoop document.id (splitWhitespace document.content)
    chunkSize fuel 0 0).isSome = true

/-! ### Helper lemmas -/

theorem specWordMatches_eq_any (qw : List Char) :
    ∀ l : List (List Char),
      specWordMatches qw l
        = l.any (fun cw => containsSeq cw qw || containsSeq qw cw)
  | [] => rfl
  | cw :: rest => by
    by_cases h : (containsSeq cw qw || containsSeq qw cw) = true <;>
      simp [specWordMatches, h, specWordMatches_eq_any qw rest]

theorem lengthPenalty_eq_spec (wc : Nat) : lengthPenalty wc = specLengthPenalty wc := rfl

theorem lengthPenalty_nonneg (wc : Nat) : 0 ≤ lengthPenalty wc := by
  unfold lengthPenalty
  split_ifs with h1 h2
  · positivity
  · positivity
  · norm_num

theorem lengthPenalty_le_one (wc : Nat) : lengthPenalty wc ≤ 1 := by
  unfold lengthPenalty
  split_ifs with h1 h2
  · rw [div_le_one (by norm_num)]
    exact_mod_cast Nat.le_of_lt h1
  · rw [div_le_one (by positivity)]
    exact_mod_cast Nat.le_of_lt h2
  · exact le_refl 1

theorem scoreChunks_length (query : String) :
    ∀ (i : Nat) (cs : List DocumentChunk),
      (scoreChunks query i cs).length = cs.length
  | _, [] => rfl
  | i, _ :: cs => by simp [scoreChunks, scoreChunks_length query (i + 1) cs]

theorem assignRanks_length :
    ∀ (i : Nat) (l : List SearchResult), (assignRanks i l).length = l.length
  | _, [] => rfl
  | i, _ :: rs => by simp [assignRanks, assignRanks_length (i + 1) rs]

theorem assignRanks_map_score :
    ∀ (i : Nat) (l : List SearchResult),
      (assignRanks i l).map (fun r => r.score) = l.map (fun r => r.score)
  | _, [] => rfl
  | i, r :: rs => by simp [assignRanks, assignRanks_map_score (i + 1) rs]

theorem assignRanks_map_rank :
    ∀ (i : Nat) (l : List SearchResult),
      (assignRanks i l).map (fun r => r.rank) = List.range' (i + 1) l.length
  | _, [] => rfl
  | i, r :: rs => by
    simp [assignRanks, assignRanks_map_rank (i + 1) rs, List.range'_succ]

theorem search_length (query : String) (chunks : List DocumentChunk) (limit : Nat) :
    (search query chunks limit).length = min limit chunks.length := by
  simp [search, assignRanks_length, List.length_take,
    List.length_insertionSort, scoreChunks_length]

theorem search_pairwise (query : String) (chunks : List DocumentChunk) (limit : Nat) :
    ((List.insertionSort scoreDesc (scoreChunks query 0 chunks)).take limit).Pairwise
      scoreDesc :=
  List.Pairwise.sublist (List.take_sublist _ _)
    (List.sorted_insertionSort scoreDesc (scoreChunks query 0 chunks))

theorem fixedSizeLoop_done (docId : String) (words : List String)
    (chunkSize fuel start idx : Nat) (hle : words.length ≤ start) :
    fixedSizeLoop docId words chunkSize fuel start idx = some [] := by
  cases fuel <;> simp [fixedSizeLoop, Nat.not_lt.mpr hle]

/-- Soundness of the fixed-size chunking loop for positive chunk sizes:
with fuel at least the number of remaining words it succeeds, the chunk
word slices (recoverable from the recorded `start_pos`/`end_pos` offsets,
which is exactly how the source takes `&words[start..end]`) concatenate
to the remaining word list, every chunk but the last holds exactly
`chunkSize` words, every chunk holds between 1 and `chunkSize` words,
each chunk's content is its word slice joined by single spaces, and the
output is empty exactly when no words remain. -/
theorem fixedSizeLoop_sound (docId : String) (words : List String) (k : Nat)
    (hk : 1 ≤ k) :
    ∀ (fuel start idx : Nat), words.length - start ≤ fuel →
      ∃ cs, fixedSizeLoop docId words k fuel start idx = some cs ∧
        ((cs.map (fun c => (words.drop c.start_pos).take (c.end_pos - c.start_pos))).flatten
            = words.drop start) ∧
        (∀ c ∈ cs.dropLast, c.word_count = k) ∧
        (∀ c ∈ cs, 1 ≤ c.word_count ∧ c.word_count ≤ k) ∧
        (∀ c ∈ cs, c.content = String.intercalate " "
          ((words.drop c.start_pos).take (c.end_pos - c.start_pos))) ∧
        (cs = [] ↔ words.length ≤ start) := by
  intro fuel
  induction fuel with
  | zero =>
    intro start idx hfuel
    have hle : words.length ≤ start := by omega
    refine ⟨[], fixedSizeLoop_done docId words k 0 start idx hle, ?_, by simp, by simp,
      by simp, by simpa using hle⟩
    simp [List.drop_eq_nil_of_le hle]
  | succ fuel ih =>
    intro start idx hfuel
    by_cases hstart : start < words.length
    · have he1 : start + 1 ≤ min (start + k) words.length := le_min (by omega) (by omega)
      have he2 : min (start + k) words.length ≤ words.length := min_le_right _ _
      have he3 : min (start + k) words.length ≤ start + k := min_le_left _ _
      obtain ⟨cs, hcs, hjoin, hdropLast, hbounds, hcontent, hnil⟩ :=
        ih (min (start + k) words.length) (idx + 1) (by omega)
      have hwlen :
          ((words.drop start).take (min (start + k) words.length - start)).length
            = min (start + k) words.length - start := by
        rw [List.length_take, List.length_drop]
        omega
      refine ⟨⟨docId ++ "_" ++ toString idx,
          String.intercalate " "
            ((words.drop start).take (min (start + k) words.length - start)),
          start, min (start + k) words.length,
          ((words.drop start).take (min (start + k) words.length - start)).length,
          docId⟩ :: cs, ?_, ?_, ?_, ?_, ?_, ?_⟩
      · simp only [fixedSizeLoop, if_pos hstart]
        rw [hcs]
        rfl
      · simp only [List.map_cons, List.flatten_cons]
        rw [hjoin]
        have hdd : (words.drop start).drop (min (start + k) words.length - start)
            = words.drop (min (start + k) words.length) := by
          rw [List.drop_drop]
          congr 1
          omega
        rw [← hdd, List.take_append_drop]
      · cases cs with
        | nil => simp
        | cons c2 cs2 =>
          have hlt : min (start + k) words.length < words.length := by
            rcases Nat.lt_or_ge (min (start + k) words.length) words.length with h | h
            · exact h
            · exact absurd (hnil.mpr (by omega)) (by simp)
          intro c' hc'
          rw [List.dropLast_cons₂] at hc'
          rcases List.mem_cons.mp hc' with rfl | hmem
          · simp only [hwlen]
            omega
          · exact hdropLast c' hmem
      · intro c' hc'
        rcases List.mem_cons.mp hc' with rfl | hmem
        · simp only [hwlen]
          omega
        · exact hbounds c' hmem
      · intro c' hc'
        rcases List.mem_cons.mp hc' with rfl | hmem
        · rfl
        · exact hcontent c' hmem
      · simp [Nat.not_le.mpr hstart]
    · have hle : words.length ≤ start := Nat.not_lt.mp hstart
      refine ⟨[], fixedSizeLoop_done docId words k (fuel + 1) start idx hle, ?_, by simp,
        by simp, by simp, by simpa using hle⟩
      simp [List.drop_eq_nil_of_le hle]

/-! ### Claim theorems -/

/-- C4: for every query and chunk content, `calculate_similarity` computes
exactly the spec's reference scoring algorithm (lower-case, whitespace
split, empty-side zero, first-match bidirectional substring containment
per query word, matched fraction times the length penalty). -/
theorem calculateSimilarity_eq_specSimilarity (query content : String) :
    calculateSimilarity query content = specSimilarity query content := by
  unfold calculateSimilarity specSimilarity
  simp only [specWordMatches_eq_any, List.countP_eq_length_filter,
    lengthPenalty_eq_spec]

/-- C5: every score computed by `calculate_similarity` lies in `[0, 1]`,
and the length-penalty factor is exactly `1` at both boundary word counts
`10` and `200` (penalties apply only strictly below 10 or strictly above
200 words). -/
theorem calculateSimilarity_bounds :
    (∀ query content : String,
        0 ≤ calculateSimilarity query content ∧ calculateSimilarity query content ≤ 1) ∧
      lengthPenalty 10 = 1 ∧ lengthPenalty 200 = 1 := by
  refine ⟨fun query content => ?_, by norm_num [lengthPenalty], by norm_num [lengthPenalty]⟩
  unfold calculateSimilarity
  dsimp only
  split_ifs with h
  · norm_num
  · push_neg at h
    obtain ⟨hq, _⟩ := h
    have hqlen : 0 < (splitWhitespaceChars (toLowerChars query)).length :=
      List.length_pos.mpr hq
    have hqlenQ : (0 : ℚ) < ((splitWhitespaceChars (toLowerChars query)).length : ℚ) := by
      exact_mod_cast hqlen
    have hfrac0 : (0 : ℚ) ≤
        (((splitWhitespaceChars (toLowerChars query)).countP
            (fun qw => (splitWhitespaceChars (toLowerChars content)).any
              (fun cw => containsSeq cw qw || containsSeq qw cw)) : ℚ)
          / ((splitWhitespaceChars (toLowerChars query)).length : ℚ)) := by
      apply div_nonneg _ (le_of_lt hqlenQ)
      exact_mod_cast Nat.zero_le _
    have hfrac1 :
        (((splitWhitespaceChars (toLowerChars query)).countP
            (fun qw => (splitWhitespaceChars (toLowerChars content)).any
              (fun cw => containsSeq cw qw || containsSeq qw cw)) : ℚ)
          / ((splitWhitespaceChars (toLowerChars query)).length : ℚ)) ≤ 1 := by
      rw [div_le_one hqlenQ]
      exact_mod_cast List.countP_le_length _
    constructor
    · exact mul_nonneg hfrac0
        (lengthPenalty_nonneg (splitWhitespaceChars (toLowerChars content)).length)
    · refine le_trans (mul_le_mul hfrac1
        (lengthPenalty_le_one (splitWhitespaceChars (toLowerChars content)).length)
        (lengthPenalty_nonneg (splitWhitespaceChars (toLowerChars content)).length)
        (by norm_num)) (by norm_num)

/-- C7: evaluating an empty result list yields all-zero metrics for every
`expected_ids` argument; in particular `evaluate([], [])` is all-zero,
the empty-results rule taking precedence over the empty-expected
convention. -/
theorem evaluate_empty_results :
    (∀ expectedDocIds : List String,
        evaluate [] expectedDocIds = ⟨0, 0, 0, 0⟩) ∧
      evaluate ([] : List SearchResult) ([] : List String) = ⟨0, 0, 0, 0⟩ :=
  ⟨fun _ => rfl, rfl⟩

/-- C8: for every non-empty result list with empty `expected_ids`, the
evaluator returns precision, recall and F1 all equal to `1`. -/
theorem evaluate_empty_expected (results : List SearchResult) (h : results ≠ []) :
    (evaluate results []).precision = 1 ∧ (evaluate results []).«recall» = 1 ∧
      (evaluate results []).f1_score = 1 := by
  simp only [evaluate, calculatePrecisionRecall, if_neg h, if_pos rfl]
  norm_num

/-- C8 witness: a concrete singleton result list with empty expectations
gets precision, recall and F1 equal to `1`. -/
theorem evaluate_empty_expected_witness :
    (evaluate [⟨"chunk1", "doc1", "text", 1, 1⟩] []).precision = 1 ∧
      (evaluate [⟨"chunk1", "doc1", "text", 1, 1⟩] []).«recall» = 1 ∧
      (evaluate [⟨"chunk1", "doc1", "text", 1, 1⟩] []).f1_score = 1 :=
  evaluate_empty_expected [⟨"chunk1", "doc1", "text", 1, 1⟩] (by simp)

/-- C1 counterexample: a single candidate chunk with empty content and
limit 1 refutes the claimed length formula: the code keeps zero-word
chunks as (zero-scored) results, so the returned list has length 1 while
the claim predicts `min 1 0 = 0`. -/
theorem search_length_claim_counterexample :
    (search "a" [⟨"c0", "", 0, 0, 0, "d0"⟩] 1).length ≠
      min 1 (List.length (List.filter
        (fun c : DocumentChunk => !(splitWhitespace c.content).isEmpty)
        [⟨"c0", "", 0, 0, 0, "d0"⟩])) := by
  decide

/-- C1 amended: for `limit ≤ |chunks|`, the ranker returns exactly
`min(limit, |chunks|)` results (all candidate chunks are scored and kept,
zero-word chunks included), with rank fields exactly the dense sequence
`1..=len(results)`. -/
theorem search_length_and_ranks (query : String) (chunks : List DocumentChunk)
    (limit : Nat) (_h : limit ≤ chunks.length) :
    (search query chunks limit).length = min limit chunks.length ∧
      (search query chunks limit).map (fun r => r.rank)
        = List.range' 1 (search query chunks limit).length := by
  refine ⟨search_length query chunks limit, ?_⟩
  simp only [search, assignRanks_length]
  exact assignRanks_map_rank 0 _

/-- C1 witness: one candidate chunk, limit 1: one result with rank 1. -/
theorem search_length_and_ranks_witness :
    (search "a" [⟨"c0", "hello", 0, 1, 1, "d0"⟩] 1).length
        = min 1 (List.length [(⟨"c0", "hello", 0, 1, 1, "d0"⟩ : DocumentChunk)]) ∧
      (search "a" [⟨"c0", "hello", 0, 1, 1, "d0"⟩] 1).map (fun r => r.rank)
        = List.range' 1 (search "a" [⟨"c0", "hello", 0, 1, 1, "d0"⟩] 1).length :=
  search_length_and_ranks "a" [⟨"c0", "hello", 0, 1, 1, "d0"⟩] 1 (by decide)

/-- C6: every result list returned by the ranker is sorted by score in
non-increasing order: each adjacent pair satisfies
`next.score ≤ previous.score`. -/
theorem search_score_descending (query : String) (chunks : List DocumentChunk)
    (limit : Nat) :
    List.Chain' (fun a b : SearchResult => b.score ≤ a.score)
      (search query chunks limit) := by
  have hc : List.Chain' scoreDesc
      ((List.insertionSort scoreDesc (scoreChunks query 0 chunks)).take limit) :=
    (search_pairwise query chunks limit).chain'
  have hmap : List.Chain' (fun x y : ℚ => y ≤ x)
      ((((List.insertionSort scoreDesc (scoreChunks query 0 chunks)).take limit)).map
        (fun r => r.score)) := by
    rw [List.chain'_map]
    exact hc
  rw [← assignRanks_map_score 0, List.chain'_map] at hmap
  exact hmap

theorem getLast?_or_irrel {l : List DocumentChunk} (h : l ≠ [])
    (a b : Option DocumentChunk) : (l.getLast?).or a = (l.getLast?).or b := by
  obtain ⟨y, hy⟩ := Option.isSome_iff_exists.mp (List.getLast?_isSome.mpr h)
  rw [hy]
  rfl

/-- C9: `store_chunks` ignores its `doc_id` argument; the resulting store
maps each key to the last chunk in the argument list bearing that id
(last write wins), falling back to the previous store contents, so the
final state depends only on the `chunks` argument. -/
theorem storeChunks_ignores_doc_id (d1 d2 : String) (chunks : List DocumentChunk)
    (m : String → Option DocumentChunk) (key : String) :
    storeChunks d1 chunks m key = storeChunks d2 chunks m key ∧
      storeChunks d1 chunks m key
        = ((chunks.filter (fun c => c.id == key)).getLast?).or (m key) := by
  refine ⟨rfl, ?_⟩
  induction chunks generalizing m with
  | nil => rfl
  | cons c cs ih =>
    show storeChunks d1 cs (insertChunk m c) key = _
    rw [ih (insertChunk m c), List.filter_cons]
    by_cases hid : (c.id == key) = true
    · simp only [hid, if_true]
      rcases heq : cs.filter (fun c => c.id == key) with _ | ⟨x, xs⟩
      · have hkey : key = c.id := (beq_iff_eq.mp hid).symm
        rw [heq]
        simp [insertChunk, hkey]
      · rw [heq, List.getLast?_cons_cons]
        exact getLast?_or_irrel (by simp) _ _
    · have hkey : ¬ key = c.id := fun he => hid (beq_iff_eq.mpr he.symm)
      have hid' : (c.id == key) = false := by
        simpa using hid
      simp only [hid', Bool.false_eq_true, if_false]
      have hins : insertChunk m c key = m key := by
        simp [insertChunk, hkey]
      rw [hins]

/-- C10: `evaluate_search` evaluates exactly the top-5 search results, so
with more than 5 expected document identifiers the recall can never
reach 1. -/
theorem evaluateSearch_top_five (storedChunks : List DocumentChunk) (query : String)
    (expectedDocIds : List String) (h : 5 < expectedDocIds.length) :
    evaluateSearch storedChunks query expectedDocIds
        = evaluate (ragSearch storedChunks query 5) expectedDocIds ∧
      (evaluateSearch storedChunks query expectedDocIds).«recall» < 1 := by
  refine ⟨rfl, ?_⟩
  have hE : expectedDocIds ≠ [] := by
    intro he
    rw [he] at h
    simp at h
  by_cases hres : ragSearch storedChunks query 5 = []
  · simp [evaluateSearch, hres, evaluate]
  · have hlen5 : (ragSearch storedChunks query 5).length ≤ 5 := by
      rw [ragSearch, search_length]
      exact min_le_left _ _
    have hcount : (ragSearch storedChunks query 5).countP
        (fun r => expectedDocIds.contains r.document_id) ≤ 5 :=
      le_trans (List.countP_le_length _) hlen5
    have hEposQ : (0 : ℚ) < (expectedDocIds.length : ℚ) := by
      exact_mod_cast lt_trans (by norm_num : (0:ℕ) < 5) h
    simp only [evaluateSearch, evaluate, if_neg hres, calculatePrecisionRecall,
      if_neg hE]
    rw [div_lt_one hEposQ]
    exact_mod_cast lt_of_le_of_lt hcount h

/-- C10 witness: with an empty store and six expected ids, the equality
holds and recall stays below 1. -/
theorem evaluateSearch_top_five_witness :
    evaluateSearch [] "q" ["a", "b", "c", "d", "e", "f"]
        = evaluate (ragSearch [] "q" 5) ["a", "b", "c", "d", "e", "f"] ∧
      (evaluateSearch [] "q" ["a", "b", "c", "d", "e", "f"]).«recall» < 1 :=
  evaluateSearch_top_five [] "q" ["a", "b", "c", "d", "e", "f"] (by decide)

theorem fixedSizeLoop_zero_size_stuck :
    ∀ (fuel idx : Nat), fixedSizeLoop "doc1" ["word"] 0 fuel 0 idx = none := by
  intro fuel
  induction fuel with
  | zero =>
    intro idx
    simp [fixedSizeLoop]
  | succ fuel ih =>
    intro idx
    simp [fixedSizeLoop, ih (idx + 1)]

/-- C2 counterexample: with chunk size 0 and the one-word document
"word", the source loop never advances (`end = min(start, len) = start`),
so no iteration count completes it: `chunk_document` does not terminate
for every chunk size, refuting totality over all of usize. -/
theorem chunking_termination_counterexample :
    ¬ FixedSizeTerminates ⟨"doc1", "word", ⟨"/tmp/w.txt", "txt", 4, 1⟩⟩ 0 := by
  rintro ⟨fuel, hsome⟩
  have hw : splitWhitespace "word" = ["word"] := by decide
  dsimp only [FixedSizeTerminates] at hsome
  rw [hw, fixedSizeLoop_zero_size_stuck fuel 0] at hsome
  simp at hsome

/-- C2 amended: fixed-size `chunk_document` terminates and returns a
chunk sequence for every chunk size ≥ 1 (in particular the default 500),
and for chunk size 0 whenever the document has zero words; with chunk
size 0 on a document with at least one word the loop never terminates
(see the counterexample). -/
theorem chunk_document_fixed_size_terminates (document : ProcessedDocument)
    (chunkSize : Nat)
    (h : 1 ≤ chunkSize ∨ splitWhitespace document.content = []) :
    ∃ cs, chunkDocument (ChunkingStrategy.FixedSize chunkSize) document = some cs := by
  rcases h with hk | hempty
  · obtain ⟨cs, hcs, -, -, -, -, -⟩ :=
      fixedSizeLoop_sound document.id (splitWhitespace document.content) chunkSize hk
        (splitWhitespace document.content).length 0 0 (by omega)
    exact ⟨cs, hcs⟩
  · refine ⟨[], ?_⟩
    show fixedSizeChunking document chunkSize = some []
    unfold fixedSizeChunking
    rw [hempty]
    exact fixedSizeLoop_done document.id [] chunkSize _ 0 0 (by simp)

/-- C2 witness: the default chunk size 500 chunks a concrete two-word
document. -/
theorem chunk_document_fixed_size_terminates_witness :
    ∃ cs, chunkDocument (ChunkingStrategy.FixedSize 500)
      ⟨"doc1", "hello world", ⟨"/tmp/h.txt", "txt", 11, 2⟩⟩ = some cs :=
  chunk_document_fixed_size_terminates
    ⟨"doc1", "hello world", ⟨"/tmp/h.txt", "txt", 11, 2⟩⟩ 500 (Or.inl (by decide))

/-- C3: for every document and chunk size `k ≥ 1`, fixed-size
segmentation succeeds; the chunks' word slices (recorded through
`start_pos`/`end_pos`, exactly the source's `&words[start..end]`)
concatenate to the document's whitespace-split word sequence; every chunk
but the last has exactly `k` words; every chunk (in particular the last)
has between 1 and `k` words; each chunk's content joins its slice with
single spaces; and a document with zero words yields zero chunks. -/
theorem fixed_size_chunking_partition (document : ProcessedDocument) (k : Nat)
    (hk : 1 ≤ k) :
    ∃ cs, fixedSizeChunking document k = some cs ∧
      ((cs.map (fun c => ((splitWhitespace document.content).drop c.start_pos).take
          (c.end_pos - c.start_pos))).flatten = splitWhitespace document.content) ∧
      (∀ c ∈ cs.dropLast, c.word_count = k) ∧
      (∀ c ∈ cs, 1 ≤ c.word_count ∧ c.word_count ≤ k) ∧
      (∀ c ∈ cs, c.content = String.intercalate " "
        (((splitWhitespace document.content).drop c.start_pos).take
          (c.end_pos - c.start_pos))) ∧
      (splitWhitespace document.content = [] → cs = []) := by
  obtain ⟨cs, hcs, hflat, hdl, hb, hcont, hnil⟩ :=
    fixedSizeLoop_sound document.id (splitWhitespace document.content) k hk
      (splitWhitespace document.content).length 0 0 (by omega)
  refine ⟨cs, hcs, ?_, hdl, hb, hcont, ?_⟩
  · simpa using hflat
  · intro hempty
    exact hnil.mpr (by simp [hempty])

/-- C3 witness: the three-word document "a b c" at chunk size 2. -/
theorem fixed_size_chunking_partition_witness :
    ∃ cs, fixedSizeChunking ⟨"doc1", "a b c", ⟨"/tmp/a.txt", "txt", 5, 3⟩⟩ 2 = some cs ∧
      ((cs.map (fun c =>
          ((splitWhitespace (⟨"doc1", "a b c", ⟨"/tmp/a.txt", "txt", 5, 3⟩⟩ :
            ProcessedDocument).content).drop c.start_pos).take
          (c.end_pos - c.start_pos))).flatten
        = splitWhitespace (⟨"doc1", "a b c", ⟨"/tmp/a.txt", "txt", 5, 3⟩⟩ :
            ProcessedDocument).content) ∧
      (∀ c ∈ cs.dropLast, c.word_count = 2) ∧
      (∀ c ∈ cs, 1 ≤ c.word_count ∧ c.word_count ≤ 2) ∧
      (∀ c ∈ cs, c.content = String.intercalate " "
        (((splitWhitespace (⟨"doc1", "a b c", ⟨"/tmp/a.txt", "txt", 5, 3⟩⟩ :
            ProcessedDocument).content).drop c.start_pos).take
          (c.end_pos - c.start_pos))) ∧
      (splitWhitespace (⟨"doc1", "a b c", ⟨"/tmp/a.txt", "txt", 5, 3⟩⟩ :
          ProcessedDocument).content = [] → cs = []) :=
  fixed_size_chunking_partition ⟨"doc1", "a b c", ⟨"/tmp/a.txt", "txt", 5, 3⟩⟩ 2
    (by decide)

end RagMvp
